import Mathlib

/-!
Shallow embedding of `conv/hips_convnet_debug.py`, a small LeNet-style
convolutional network training script.  Machine floats are modelled as exact
numbers: `ℚ` where only ring/order operations occur, `ℝ` where `exp`/`log`
are involved.  numpy arrays are modelled either as Lean lists (for the flat
parameter vector) or as functions out of `Fin`-indexed types (for tensors,
with the shape carried in the type).
-/

namespace MeshCNN

/-! ## WeightsParser (`hips_convnet_debug.py`, lines 25-38)

`WeightsParser` keeps a Python dict `idxs_and_shapes` mapping a name to a
`(slice(start, stop), shape)` pair, and a running total `N`.  The dict is
modelled as an association list with Python-dict assignment semantics:
assigning to an existing key replaces its value in place, otherwise the new
entry is appended.  A slice is modelled as its `(start, stop)` pair and a
shape as a `List Nat`; `np.prod shape` is `List.prod`. -/

/-- One registered entry: name, `(start, stop)` slice, shape. -/
abbrev PEntry : Type := String × (Nat × Nat) × List Nat

/-- Python dict assignment `d[k] = v`: replace the value of an existing key
in place, else append the new binding. -/
def dictAssign (d : List PEntry) (k : String) (v : (Nat × Nat) × List Nat) :
    List PEntry :=
  if d.any (fun p => p.1 = k) then
    d.map (fun p => if p.1 = k then (k, v) else p)
  else
    d ++ [(k, v)]

/-- Python dict lookup `d[k]`, `none` modelling a `KeyError`. -/
def dictFind (d : List PEntry) (k : String) : Option ((Nat × Nat) × List Nat) :=
  (d.find? (fun p => p.1 = k)).map (fun p => p.2)

/-- State of `WeightsParser.__init__`: empty dict, `N = 0`. -/
structure WeightsParser where
  idxs_and_shapes : List PEntry
  N : Nat

/-- Method `WeightsParser.add_weights(name, shape)`: `start = self.N`;
`self.N += np.prod(shape)`;
`self.idxs_and_shapes[name] = (slice(start, self.N), shape)`. -/
def add_weights (p : WeightsParser) (name : String) (shape : List Nat) :
    WeightsParser :=
  { idxs_and_shapes :=
      dictAssign p.idxs_and_shapes name ((p.N, p.N + shape.prod), shape)
    N := p.N + shape.prod }

/-- numpy basic slicing `v[start:stop]` for `0 ≤ start ≤ stop` (out-of-range
bounds are clamped, as in numpy). -/
def npSlice {α : Type} (v : List α) (s : Nat × Nat) : List α :=
  (v.drop s.1).take (s.2 - s.1)

/-- Reshape `np.reshape(v, shape)`: succeeds (returning the shape together with the
row-major data) exactly when the element count matches `np.prod shape`. -/
def npReshape (v : List ℚ) (shape : List Nat) : Option (List Nat × List ℚ) :=
  if v.length = shape.prod then some (shape, v) else none

/-- Method `WeightsParser.get(vect, name)`:
`idxs, shape = self.idxs_and_shapes[name]; return np.reshape(vect[idxs], shape)`.
`none` models a `KeyError` on an unregistered name or a reshape failure. -/
def WeightsParser.get (p : WeightsParser) (vect : List ℚ) (name : String) :
    Option (List Nat × List ℚ) :=
  match dictFind p.idxs_and_shapes name with
  | some (idxs, shape) => npReshape (npSlice vect idxs) shape
  | none => none

/-- The fresh parser `WeightsParser()`. -/
def emptyParser : WeightsParser := { idxs_and_shapes := [], N := 0 }

/-- Registering a whole list of `(name, shape)` blocks in order on a fresh
parser. -/
def addWeightsList (specs : List (String × List Nat)) : WeightsParser :=
  specs.foldl (fun p s => add_weights p s.1 s.2) emptyParser

/-- The entry list that `addWeightsList` is expected to produce when all
names are distinct: block `i` occupies `[start_i, start_i + prod shape_i)`
with `start_0 = s` and each block starting where the previous one stopped. -/
def rangesFrom (s : Nat) : List (String × List Nat) → List PEntry
  | [] => []
  | (n, sh) :: rest => (n, (s, s + sh.prod), sh) :: rangesFrom (s + sh.prod) rest

/-! ## make_batches (`hips_convnet_debug.py`, lines 40-46)

`make_batches(N_total, N_batch)` runs `start = 0` and, while
`start < N_total`, appends `slice(start, start + N_batch)` and advances
`start += N_batch`.  The Python loop diverges when `N_batch = 0` and
`N_total > 0`; the embedding's extra `0 < N_batch` guard (returning `[]`
on that never-terminating configuration) only makes the function total. -/

/-- The `while start < N_total` loop of `make_batches`, from a given
`start`. -/
def make_batches_loop (N_total N_batch start : Nat) : List (Nat × Nat) :=
  if _h : start < N_total ∧ 0 < N_batch then
    (start, start + N_batch) :: make_batches_loop N_total N_batch (start + N_batch)
  else []
termination_by N_total - start
decreasing_by omega

/-- Function `make_batches(N_total, N_batch)`. -/
def make_batches (N_total N_batch : Nat) : List (Nat × Nat) :=
  make_batches_loop N_total N_batch 0

/-! ## Theorems about WeightsParser.add_weights on duplicate names (C2) -/

lemma find?_map_assign (d : List PEntry) (k : String)
    (v : (Nat × Nat) × List Nat)
    (hany : d.any (fun p => p.1 = k) = true) :
    (d.map (fun p => if p.1 = k then (k, v) else p)).find?
      (fun p => p.1 = k) = some (k, v) := by
  induction d with
  | nil => simp at hany
  | cons p0 d ih =>
    by_cases h0 : p0.1 = k
    · simp [List.find?_cons, h0]
    · have hany' : d.any (fun p => p.1 = k) = true := by
        simpa [List.any_cons, h0] using hany
      simp [List.find?_cons, h0, ih hany']

lemma dictFind_dictAssign_self (d : List PEntry) (k : String)
    (v : (Nat × Nat) × List Nat) (hk : (dictFind d k).isSome) :
    dictFind (dictAssign d k v) k = some v := by
  have hany : d.any (fun p => p.1 = k) = true := by
    rw [List.any_eq_true]
    rcases hfind : d.find? (fun p => decide (p.1 = k)) with _ | x
    · rw [dictFind, hfind] at hk
      simp at hk
    · refine ⟨x, List.mem_of_find?_eq_some hfind, ?_⟩
      simpa using List.find?_some hfind
  simp only [dictAssign, hany, if_true]
  rw [dictFind, find?_map_assign d k v hany]
  rfl

/-- C2 counterexample: registering `"a"` twice on a fresh parser does not
fail; the second call replaces the registration `((0, 2), [2])` with a new
block `((2, 5), [3])` and still grows `N` to `5`. -/
theorem add_weights_duplicate_counterexample :
    (add_weights (add_weights emptyParser "a" [2]) "a" [3]).idxs_and_shapes
      = [("a", (2, 5), [3])] ∧
    (add_weights (add_weights emptyParser "a" [2]) "a" [3]).N = 5 := by
  constructor <;> rfl

/-- C2 (amended): calling `add_weights` again with an already-registered
name does not fail: it overwrites the registration with a fresh range
starting at the current total size, and still increases the total size by
the product of the new shape. -/
theorem add_weights_overwrites (p : WeightsParser) (name : String)
    (shape shape0 : List Nat) (sl0 : Nat × Nat)
    (h : dictFind p.idxs_and_shapes name = some (sl0, shape0)) :
    dictFind (add_weights p name shape).idxs_and_shapes name
      = some ((p.N, p.N + shape.prod), shape) ∧
    (add_weights p name shape).N = p.N + shape.prod := by
  refine ⟨?_, rfl⟩
  exact dictFind_dictAssign_self _ _ _ (by rw [h]; rfl)

/-- Witness for `add_weights_overwrites` at a concrete parser. -/
theorem add_weights_overwrites_witness :
    dictFind (add_weights (add_weights emptyParser "a" [2]) "a" [3]).idxs_and_shapes "a"
      = some (((add_weights emptyParser "a" [2]).N,
          (add_weights emptyParser "a" [2]).N + ([3] : List Nat).prod), [3]) ∧
    (add_weights (add_weights emptyParser "a" [2]) "a" [3]).N
      = (add_weights emptyParser "a" [2]).N + ([3] : List Nat).prod :=
  add_weights_overwrites (add_weights emptyParser "a" [2]) "a" [3] [2] (0, 2) rfl

/-! ## Layout invariant of a fresh parser (C3) -/

lemma foldl_add_weights :
    ∀ (specs : List (String × List Nat)) (p : WeightsParser),
      specs.Pairwise (fun a b => a.1 ≠ b.1) →
      (∀ q ∈ specs, p.idxs_and_shapes.any (fun e => e.1 = q.1) = false) →
      (specs.foldl (fun p s => add_weights p s.1 s.2) p).idxs_and_shapes
          = p.idxs_and_shapes ++ rangesFrom p.N specs
        ∧ (specs.foldl (fun p s => add_weights p s.1 s.2) p).N
          = p.N + (specs.map (fun q => q.2.prod)).sum
  | [], p, _, _ => by simp [rangesFrom]
  | q :: rest, p, hdist, hfresh => by
    have hq : p.idxs_and_shapes.any (fun e => e.1 = q.1) = false :=
      hfresh q (List.mem_cons_self q rest)
    have hqrest : ∀ r ∈ rest, q.1 ≠ r.1 :=
      fun r hr => (List.pairwise_cons.mp hdist).1 r hr
    have hstep : (add_weights p q.1 q.2).idxs_and_shapes
        = p.idxs_and_shapes ++ [(q.1, (p.N, p.N + q.2.prod), q.2)] := by
      simp [add_weights, dictAssign, hq]
    have hfresh' : ∀ r ∈ rest,
        (add_weights p q.1 q.2).idxs_and_shapes.any
          (fun e => e.1 = r.1) = false := by
      intro r hr
      rw [hstep, List.any_append]
      have h1 : p.idxs_and_shapes.any (fun e => e.1 = r.1) = false :=
        hfresh r (List.mem_cons_of_mem q hr)
      have h2 : q.1 ≠ r.1 := hqrest r hr
      simp [h1, h2]
    have hrec := foldl_add_weights rest (add_weights p q.1 q.2)
      (List.pairwise_cons.mp hdist).2 hfresh'
    have hN : (add_weights p q.1 q.2).N = p.N + q.2.prod := rfl
    constructor
    · rw [List.foldl_cons, hrec.1, hstep, hN]
      simp [rangesFrom, List.append_assoc]
    · rw [List.foldl_cons, hrec.2, hN]
      simp [List.map_cons, List.sum_cons]
      omega

lemma rangesFrom_flatten_range (specs : List (String × List Nat)) :
    ∀ s : Nat,
      ((rangesFrom s specs).map
        (fun e => List.range' e.2.1.1 (e.2.1.2 - e.2.1.1))).flatten
        = List.range' s ((specs.map (fun q => q.2.prod)).sum) := by
  induction specs with
  | nil => intro s; simp [rangesFrom]
  | cons q rest ih =>
    intro s
    simp only [rangesFrom, List.map_cons, List.flatten_cons, ih (s + q.2.prod)]
    have h1 : s + q.2.prod - s = q.2.prod := by omega
    rw [h1, List.range'_append_1]
    simp only [List.map_cons, List.sum_cons]
    congr 1
    omega

lemma dictFind_rangesFrom :
    ∀ (specs : List (String × List Nat)) (s : Nat) (name : String)
      (shape : List Nat),
      (name, shape) ∈ specs →
      specs.Pairwise (fun a b => a.1 ≠ b.1) →
      ∃ a, dictFind (rangesFrom s specs) name
            = some ((a, a + shape.prod), shape)
        ∧ s ≤ a
        ∧ a + shape.prod ≤ s + (specs.map (fun q => q.2.prod)).sum
  | [], _, _, _, hmem, _ => absurd hmem (List.not_mem_nil _)
  | q :: rest, s, name, shape, hmem, hdist => by
    rcases List.mem_cons.mp hmem with heq | hmem'
    · refine ⟨s, ?_, le_refl s, ?_⟩
      · rw [← heq]
        simp [dictFind, rangesFrom, List.find?_cons]
      · simp only [List.map_cons, List.sum_cons, ← heq]
        omega
    · have hq_ne : q.1 ≠ name := by
        have h := (List.pairwise_cons.mp hdist).1 (name, shape) hmem'
        simpa using h
      obtain ⟨a, hfind, hle, hub⟩ := dictFind_rangesFrom rest (s + q.2.prod)
        name shape hmem' (List.pairwise_cons.mp hdist).2
      refine ⟨a, ?_, by omega, ?_⟩
      · rw [rangesFrom, dictFind, List.find?_cons] at *
        simpa [hq_ne] using hfind
      · simp only [List.map_cons, List.sum_cons]
        omega

lemma npSlice_length {α : Type} (v : List α) (a b : Nat) (hab : a ≤ b)
    (hb : b ≤ v.length) :
    (npSlice v (a, b)).length = b - a := by
  simp only [npSlice, List.length_take, List.length_drop]
  omega

/-- C3: on a fresh parser, a sequence of `add_weights` calls with
pairwise-distinct names registers blocks whose ranges are contiguous,
non-overlapping and in declaration order (`rangesFrom 0 specs`: each block
starts where the previous one stopped, starting at `0`); their
concatenation is exactly `[0, N)` where `N` is the parser's total size; and
on any vector of length `N`, `get` succeeds on every registered name and
returns the registered shape (with data of matching size). -/
theorem addWeightsList_layout (specs : List (String × List Nat))
    (hdist : specs.Pairwise (fun a b => a.1 ≠ b.1)) :
    (addWeightsList specs).idxs_and_shapes = rangesFrom 0 specs
    ∧ (addWeightsList specs).N = (specs.map (fun q => q.2.prod)).sum
    ∧ (((addWeightsList specs).idxs_and_shapes).map
        (fun e => List.range' e.2.1.1 (e.2.1.2 - e.2.1.1))).flatten
        = List.range (addWeightsList specs).N
    ∧ ∀ (vect : List ℚ) (name : String) (shape : List Nat),
        vect.length = (addWeightsList specs).N →
        (name, shape) ∈ specs →
        ∃ data, (addWeightsList specs).get vect name = some (shape, data)
          ∧ data.length = shape.prod := by
  have hfold := foldl_add_weights specs emptyParser hdist
    (by intro q _; rfl)
  have hidx : (addWeightsList specs).idxs_and_shapes = rangesFrom 0 specs := by
    rw [addWeightsList, hfold.1]; rfl
  have hN : (addWeightsList specs).N = (specs.map (fun q => q.2.prod)).sum := by
    rw [addWeightsList, hfold.2]
    simp [emptyParser]
  refine ⟨hidx, hN, ?_, ?_⟩
  · rw [hidx, hN, rangesFrom_flatten_range specs 0, List.range_eq_range']
  · intro vect name shape hlen hmem
    obtain ⟨a, hfind, _, hub⟩ := dictFind_rangesFrom specs 0 name shape hmem hdist
    have hub' : a + shape.prod ≤ vect.length := by
      rw [hlen, hN]; omega
    have hslice : (npSlice vect (a, a + shape.prod)).length = shape.prod := by
      rw [npSlice_length vect a (a + shape.prod) (by omega) hub']
      omega
    refine ⟨npSlice vect (a, a + shape.prod), ?_, hslice⟩
    rw [WeightsParser.get, hidx, hfind]
    simp [npReshape, hslice]

/-- Witness for `addWeightsList_layout` at two concrete blocks. -/
theorem addWeightsList_layout_witness :
    (addWeightsList [("w", [2, 3]), ("b", [4])]).idxs_and_shapes
        = rangesFrom 0 [("w", [2, 3]), ("b", [4])]
    ∧ (addWeightsList [("w", [2, 3]), ("b", [4])]).N
        = (([("w", [2, 3]), ("b", [4])] : List (String × List Nat)).map
            (fun q => q.2.prod)).sum
    ∧ (((addWeightsList [("w", [2, 3]), ("b", [4])]).idxs_and_shapes).map
        (fun e => List.range' e.2.1.1 (e.2.1.2 - e.2.1.1))).flatten
        = List.range (addWeightsList [("w", [2, 3]), ("b", [4])]).N
    ∧ ∀ (vect : List ℚ) (name : String) (shape : List Nat),
        vect.length = (addWeightsList [("w", [2, 3]), ("b", [4])]).N →
        (name, shape) ∈ ([("w", [2, 3]), ("b", [4])] : List (String × List Nat)) →
        ∃ data, (addWeightsList [("w", [2, 3]), ("b", [4])]).get vect name
            = some (shape, data)
          ∧ data.length = shape.prod :=
  addWeightsList_layout [("w", [2, 3]), ("b", [4])] (by decide)

/-! ## Theorems about make_batches (C8) -/

lemma make_batches_loop_length (N b : Nat) (hb : 0 < b) :
    ∀ s, (make_batches_loop N b s).length = (N - s + b - 1) / b := by
  have H : ∀ fuel s, N - s ≤ fuel →
      (make_batches_loop N b s).length = (N - s + b - 1) / b := by
    intro fuel
    induction fuel with
    | zero =>
      intro s hs
      rw [make_batches_loop, dif_neg (by omega)]
      have h0 : N - s = 0 := by omega
      rw [h0, List.length_nil, Nat.div_eq_of_lt (by omega)]
    | succ fuel ih =>
      intro s hs
      rw [make_batches_loop]
      by_cases hcond : s < N ∧ 0 < b
      · rw [dif_pos hcond, List.length_cons, ih (s + b) (by omega)]
        have e1 : N - s + b - 1 = (N - s - 1) + b := by omega
        rw [e1, Nat.add_div_right _ hb]
        congr 1
        by_cases hrb : N - s ≤ b
        · have e2 : N - (s + b) = 0 := by omega
          rw [e2, Nat.div_eq_of_lt (by omega), Nat.div_eq_of_lt (by omega)]
        · have e3 : N - (s + b) + b - 1 = N - s - 1 := by omega
          rw [e3]
      · rw [dif_neg hcond]
        have h0 : N - s = 0 := by omega
        rw [h0, List.length_nil, Nat.div_eq_of_lt (by omega)]
  intro s
  exact H (N - s) s (le_refl _)

lemma make_batches_loop_getElem (N b : Nat) (hb : 0 < b) :
    ∀ s i, (make_batches_loop N b s)[i]? =
      if s + i * b < N then some (s + i * b, s + i * b + b) else none := by
  have H : ∀ fuel s, N - s ≤ fuel → ∀ i, (make_batches_loop N b s)[i]? =
      if s + i * b < N then some (s + i * b, s + i * b + b) else none := by
    intro fuel
    induction fuel with
    | zero =>
      intro s hs i
      rw [make_batches_loop, dif_neg (by omega)]
      have : ¬ s + i * b < N := by omega
      simp [this]
    | succ fuel ih =>
      intro s hs i
      rw [make_batches_loop]
      by_cases hcond : s < N ∧ 0 < b
      · rw [dif_pos hcond]
        cases i with
        | zero =>
          have h0 : s + 0 * b = s := by omega
          simp [h0, hcond.1]
        | succ i =>
          rw [List.getElem?_cons_succ, ih (s + b) (by omega) i]
          have e1 : s + b + i * b = s + (i + 1) * b := by
            rw [Nat.succ_mul]; omega
          rw [e1]
      · rw [dif_neg hcond]
        have : ¬ s + i * b < N := by omega
        simp [this]
  intro s
  exact H (N - s) s (le_refl _)

lemma make_batches_loop_flatten {α : Type} (N b : Nat) (hb : 0 < b)
    (xs : List α) (hxs : xs.length = N) :
    ∀ s, ((make_batches_loop N b s).map (npSlice xs)).flatten = xs.drop s := by
  have H : ∀ fuel s, N - s ≤ fuel →
      ((make_batches_loop N b s).map (npSlice xs)).flatten = xs.drop s := by
    intro fuel
    induction fuel with
    | zero =>
      intro s hs
      rw [make_batches_loop, dif_neg (by omega)]
      rw [List.map_nil, List.flatten_nil, Eq.comm, List.drop_eq_nil_iff]
      omega
    | succ fuel ih =>
      intro s hs
      rw [make_batches_loop]
      by_cases hcond : s < N ∧ 0 < b
      · rw [dif_pos hcond, List.map_cons, List.flatten_cons, ih (s + b) (by omega)]
        have eb : s + b - s = b := by omega
        have e1 : npSlice xs (s, s + b) = (xs.drop s).take b := by
          rw [npSlice, eb]
        have e2 : xs.drop (s + b) = (xs.drop s).drop b := by
          rw [List.drop_drop]
        rw [e1, e2, List.take_append_drop]
      · rw [dif_neg hcond]
        rw [List.map_nil, List.flatten_nil, Eq.comm, List.drop_eq_nil_iff]
        omega
  intro s
  exact H (N - s) s (le_refl _)

lemma npSlice_length_clamp {α : Type} (xs : List α) (a c : Nat) :
    (npSlice xs (a, c)).length = min (c - a) (xs.length - a) := by
  simp [npSlice, List.length_take, List.length_drop]

/-- C8: for `N_total > 0` and `N_batch > 0`, `make_batches` returns
`⌈N_total / N_batch⌉` contiguous slices in increasing order
(`slice i = (i*N_batch, i*N_batch + N_batch)`); applied to any list of
length `N_total` they partition it exactly (their concatenation is the
list itself), each slice selecting `min N_batch (N_total - i*N_batch)`
elements — exactly `N_batch` for every slice but possibly the final one. -/
theorem make_batches_spec (N_total N_batch : Nat) (hN : 0 < N_total)
    (hb : 0 < N_batch) :
    (make_batches N_total N_batch).length = (N_total + N_batch - 1) / N_batch
    ∧ (∀ i, (make_batches N_total N_batch)[i]? =
        if i * N_batch < N_total then
          some (i * N_batch, i * N_batch + N_batch)
        else none)
    ∧ (∀ {α : Type} (xs : List α), xs.length = N_total →
        ((make_batches N_total N_batch).map (npSlice xs)).flatten = xs)
    ∧ (∀ {α : Type} (xs : List α), xs.length = N_total →
        ∀ i, i < (make_batches N_total N_batch).length →
          (npSlice xs (i * N_batch, i * N_batch + N_batch)).length
              = min N_batch (N_total - i * N_batch)
            ∧ (i + 1 < (make_batches N_total N_batch).length →
              (npSlice xs (i * N_batch, i * N_batch + N_batch)).length
                = N_batch)) := by
  have hlen : (make_batches N_total N_batch).length
      = (N_total + N_batch - 1) / N_batch := by
    rw [make_batches, make_batches_loop_length N_total N_batch hb 0]
    simp
  refine ⟨hlen, ?_, ?_, ?_⟩
  · intro i
    rw [make_batches, make_batches_loop_getElem N_total N_batch hb 0 i]
    have e : 0 + i * N_batch = i * N_batch := by omega
    rw [e]
  · intro α xs hxs
    rw [make_batches, make_batches_loop_flatten N_total N_batch hb xs hxs 0,
      List.drop_zero]
  · intro α xs hxs i hi
    have hmin : (npSlice xs (i * N_batch, i * N_batch + N_batch)).length
        = min N_batch (N_total - i * N_batch) := by
      rw [npSlice_length_clamp, hxs]
      congr 1
      omega
    refine ⟨hmin, fun hi1 => ?_⟩
    rw [hlen] at hi1
    have h2 : i + 2 ≤ (N_total + N_batch - 1) / N_batch := by omega
    rw [Nat.le_div_iff_mul_le hb] at h2
    have h3 : (i + 2) * N_batch = i * N_batch + 2 * N_batch := by ring
    rw [hmin]
    omega

/-- Witness for `make_batches_spec` with five elements in batches of two. -/
theorem make_batches_spec_witness :
    (make_batches 5 2).length = (5 + 2 - 1) / 2
    ∧ (∀ i, (make_batches 5 2)[i]? =
        if i * 2 < 5 then some (i * 2, i * 2 + 2) else none)
    ∧ (∀ {α : Type} (xs : List α), xs.length = 5 →
        ((make_batches 5 2).map (npSlice xs)).flatten = xs)
    ∧ (∀ {α : Type} (xs : List α), xs.length = 5 →
        ∀ i, i < (make_batches 5 2).length →
          (npSlice xs (i * 2, i * 2 + 2)).length = min 2 (5 - i * 2)
            ∧ (i + 1 < (make_batches 5 2).length →
              (npSlice xs (i * 2, i * 2 + 2)).length = 2)) :=
  make_batches_spec 5 2 (by decide) (by decide)

/-! ## logsumexp and the softmax nonlinearity (C5)

`logsumexp(X, axis, keepdims)` (lines 48-50) computes
`max_X = np.max(X)` — the *global* max over the whole array — and returns
`max_X + np.log(np.sum(np.exp(X - max_X), axis=axis, keepdims=keepdims))`.
`softmax_layer.nonlinearity(x)` (lines 151-153) returns
`x - logsumexp(x, axis=1, keepdims=True)`.  Matrices are `Fin`-indexed real
functions; with `keepdims=True` the summed-out axis broadcasts back, so row
`i` of the result subtracts the same scalar from every entry of row `i`. -/

/-- Global max `np.max(X)` over a whole (nonempty) matrix. -/
noncomputable def npmaxAll {m n : Nat} (X : Fin (m + 1) → Fin (n + 1) → ℝ) : ℝ :=
  Finset.univ.sup' ⟨(0, 0), Finset.mem_univ _⟩
    (fun p : Fin (m + 1) × Fin (n + 1) => X p.1 p.2)

/-- Row `i` of `logsumexp(X, axis=1, keepdims=True)`. -/
noncomputable def logsumexp {m n : Nat} (X : Fin (m + 1) → Fin (n + 1) → ℝ)
    (i : Fin (m + 1)) : ℝ :=
  npmaxAll X + Real.log (∑ j, Real.exp (X i j - npmaxAll X))

/-- Nonlinearity `softmax_layer.nonlinearity(x) = x - logsumexp(x, axis=1, keepdims=True)`. -/
noncomputable def softmax_nonlinearity {m n : Nat} (X : Fin (m + 1) → Fin (n + 1) → ℝ) :
    Fin (m + 1) → Fin (n + 1) → ℝ :=
  fun i j => X i j - logsumexp X i

/-- C5: for every finite-valued input matrix, each row of the softmax
layer's nonlinearity output is a vector of normalized log-probabilities:
the exponentials of any row sum to `1`. -/
theorem softmax_rows_normalized {m n : Nat}
    (X : Fin (m + 1) → Fin (n + 1) → ℝ) (i : Fin (m + 1)) :
    ∑ j, Real.exp (softmax_nonlinearity X i j) = 1 := by
  have hS : (0 : ℝ) < ∑ k, Real.exp (X i k - npmaxAll X) :=
    Finset.sum_pos (fun k _ => Real.exp_pos _) Finset.univ_nonempty
  have hstep : ∀ j, Real.exp (softmax_nonlinearity X i j)
      = Real.exp (X i j - npmaxAll X)
        / (∑ k, Real.exp (X i k - npmaxAll X)) := by
    intro j
    rw [softmax_nonlinearity, logsumexp,
      show X i j - (npmaxAll X + Real.log (∑ k, Real.exp (X i k - npmaxAll X)))
          = (X i j - npmaxAll X)
            - Real.log (∑ k, Real.exp (X i k - npmaxAll X)) by ring,
      Real.exp_sub, Real.exp_log hS]
  calc ∑ j, Real.exp (softmax_nonlinearity X i j)
      = ∑ j, Real.exp (X i j - npmaxAll X)
          / (∑ k, Real.exp (X i k - npmaxAll X)) :=
        Finset.sum_congr rfl (fun j _ => hstep j)
    _ = (∑ j, Real.exp (X i j - npmaxAll X))
          / (∑ k, Real.exp (X i k - npmaxAll X)) := by
        rw [Finset.sum_div]
    _ = 1 := div_self (ne_of_gt hS)

/-! ## frac_err (C9)

`frac_err(W_vect, X, T)` (lines 73-74) is
`np.mean(np.argmax(T, axis=1) != np.argmax(pred_fun(W_vect, X), axis=1))`.
The name `pred_fun` resolves at call time to the module-level binding of
the network's prediction function, so the embedding takes the prediction
function as an argument.  The mean of a boolean array is the number of
`True` entries divided by the array length. -/

/-- Scan `np.argmax(row)`: a left-to-right scan keeping the current strict
maximum, i.e. the first index attaining the row's maximum. -/
def npArgmax {k : Nat} (row : Fin (k + 1) → ℚ) : Fin (k + 1) :=
  (List.finRange (k + 1)).foldl
    (fun best j => if row best < row j then j else best) 0

/-- Function `frac_err(W_vect, X, T)`. -/
def frac_err {α β : Type} {n k : Nat}
    (pred_fun : α → β → Fin (n + 1) → Fin (k + 1) → ℚ)
    (W_vect : α) (X : β) (T : Fin (n + 1) → Fin (k + 1) → ℚ) : ℚ :=
  (∑ i : Fin (n + 1),
    if npArgmax (T i) ≠ npArgmax (pred_fun W_vect X i) then (1 : ℚ) else 0)
    / (n + 1)

/-- C9: `frac_err` equals the fraction of examples whose predicted argmax
differs from the one-hot label argmax; it is `0` exactly when the argmaxes
agree on every example, and `1` exactly when they disagree on every
example. -/
theorem frac_err_spec {α β : Type} {n k : Nat}
    (pred_fun : α → β → Fin (n + 1) → Fin (k + 1) → ℚ)
    (W_vect : α) (X : β) (T : Fin (n + 1) → Fin (k + 1) → ℚ) :
    frac_err pred_fun W_vect X T
        = (Finset.univ.filter
            (fun i => npArgmax (T i) ≠ npArgmax (pred_fun W_vect X i))).card
          / (n + 1)
    ∧ (frac_err pred_fun W_vect X T = 0
        ↔ ∀ i, npArgmax (T i) = npArgmax (pred_fun W_vect X i))
    ∧ (frac_err pred_fun W_vect X T = 1
        ↔ ∀ i, npArgmax (T i) ≠ npArgmax (pred_fun W_vect X i)) := by
  have hcard : frac_err pred_fun W_vect X T
      = (Finset.univ.filter
          (fun i => npArgmax (T i) ≠ npArgmax (pred_fun W_vect X i))).card
        / (n + 1) := by
    rw [frac_err, Finset.sum_boole]
  have hden : ((n : ℚ) + 1) ≠ 0 := by positivity
  refine ⟨hcard, ?_, ?_⟩
  · rw [hcard, div_eq_zero_iff]
    constructor
    · intro h
      rcases h with h | h
      · have hc : (Finset.univ.filter
            (fun i => npArgmax (T i) ≠ npArgmax (pred_fun W_vect X i))).card
            = 0 := by exact_mod_cast h
        rw [Finset.card_eq_zero, Finset.filter_eq_empty_iff] at hc
        intro i
        have := hc (Finset.mem_univ i)
        simpa using this
      · exact absurd h hden
    · intro h
      left
      have hc : (Finset.univ.filter
          (fun i => npArgmax (T i) ≠ npArgmax (pred_fun W_vect X i))) = ∅ := by
        rw [Finset.filter_eq_empty_iff]
        intro i _
        simp [h i]
      rw [hc]
      simp
  · rw [hcard, div_eq_one_iff_eq hden]
    constructor
    · intro h
      have hc : (Finset.univ.filter
          (fun i => npArgmax (T i) ≠ npArgmax (pred_fun W_vect X i))).card
          = n + 1 := by exact_mod_cast h
      have huniv : (Finset.univ.filter
          (fun i => npArgmax (T i) ≠ npArgmax (pred_fun W_vect X i)))
          = Finset.univ := by
        apply Finset.eq_univ_of_card
        rw [hc, Fintype.card_fin]
      intro i
      have := Finset.mem_filter.mp (huniv ▸ Finset.mem_univ i)
      exact this.2
    · intro h
      have huniv : (Finset.univ.filter
          (fun i => npArgmax (T i) ≠ npArgmax (pred_fun W_vect X i)))
          = Finset.univ := by
        rw [Finset.filter_eq_self]
        intro i _
        exact h i
      rw [huniv, Finset.card_univ, Fintype.card_fin]
      push_cast
      ring

/-! ## maxpool_layer.forward_pass (C4, C10)

Lines 119-126: the input of shape `(N, C, H, W)` is reshaped (row-major) to
`new_shape = (N, C, H // ph, ph, W // pw, pw)` and reduced with `np.max`
first along axis 3 (the `ph` tile axis) and then along axis 4 of the
*reduced* array — the `pw` tile axis, since removing axis 3 shifted the
later axes down by one.  The divisibility preconditions `H % ph == 0` and
`W % pw == 0` (asserted in `build_weights_dict`) are carried in the types:
`H = hq * (ph + 1)`, `W = wq * (pw + 1)` with positive pool sizes
`ph + 1`, `pw + 1` (numpy's `np.max` errors on an empty axis).
`forward_pass(self, inputs, param_vector)` also receives the layer's
parameter slice and never reads it. -/

/-- Axis max `np.max` along one positive-length `Fin`-indexed axis. -/
def npmax1 {n : Nat} (f : Fin (n + 1) → ℚ) : ℚ :=
  Finset.univ.sup' ⟨0, Finset.mem_univ 0⟩ f

lemma tile_index_lt {q p a b : Nat} (ha : a < q) (hb : b < p) :
    a * p + b < q * p :=
  calc a * p + b < a * p + p := by omega
    _ = (a + 1) * p := by ring
    _ ≤ q * p := Nat.mul_le_mul_right p ha

/-- Reshape `inputs.reshape(new_shape)`: the row-major reshape to
`(N, C, H // ph, ph, W // pw, pw)` sends index `(n, c, a, b, d, e)` to
input index `(n, c, a*ph + b, d*pw + e)`. -/
def maxpool_reshape {Nd C hq ph wq pw : Nat}
    (inputs : Fin Nd → Fin C → Fin (hq * (ph + 1)) → Fin (wq * (pw + 1)) → ℚ) :
    Fin Nd → Fin C → Fin hq → Fin (ph + 1) → Fin wq → Fin (pw + 1) → ℚ :=
  fun n c a b d e =>
    inputs n c ⟨a.val * (ph + 1) + b.val, tile_index_lt a.isLt b.isLt⟩
      ⟨d.val * (pw + 1) + e.val, tile_index_lt d.isLt e.isLt⟩

/-- Reduction `np.max(result, axis=3)`: reduces the `ph` tile axis. -/
def maxpool_stage1 {Nd C hq ph wq pw : Nat}
    (inputs : Fin Nd → Fin C → Fin (hq * (ph + 1)) → Fin (wq * (pw + 1)) → ℚ) :
    Fin Nd → Fin C → Fin hq → Fin wq → Fin (pw + 1) → ℚ :=
  fun n c a d e => npmax1 (fun b => maxpool_reshape inputs n c a b d e)

/-- Method `maxpool_layer.forward_pass(inputs, param_vector)`: reshape, then
`np.max(np.max(result, axis=3), axis=4)`. -/
def maxpool_forward_pass {Nd C hq ph wq pw : Nat} (param_vector : List ℚ)
    (inputs : Fin Nd → Fin C → Fin (hq * (ph + 1)) → Fin (wq * (pw + 1)) → ℚ) :
    Fin Nd → Fin C → Fin hq → Fin wq → ℚ :=
  fun n c a d => npmax1 (fun e => maxpool_stage1 inputs n c a d e)

lemma npmax1_le {n : Nat} {f : Fin (n + 1) → ℚ} {a : ℚ} (h : ∀ b, f b ≤ a) :
    npmax1 f ≤ a :=
  Finset.sup'_le _ _ (fun b _ => h b)

lemma le_npmax1 {n : Nat} (f : Fin (n + 1) → ℚ) (b : Fin (n + 1)) :
    f b ≤ npmax1 f :=
  Finset.le_sup' _ (Finset.mem_univ b)

/-- The tile maximum the spec describes: the max of the `ph × pw`
non-overlapping input tile at output position `(i, j)`. -/
def tileMax {Nd C hq ph wq pw : Nat}
    (inputs : Fin Nd → Fin C → Fin (hq * (ph + 1)) → Fin (wq * (pw + 1)) → ℚ)
    (n : Fin Nd) (c : Fin C) (i : Fin hq) (j : Fin wq) : ℚ :=
  Finset.univ.sup' ⟨(0, 0), Finset.mem_univ (0, 0)⟩
    (fun be : Fin (ph + 1) × Fin (pw + 1) =>
      inputs n c ⟨i.val * (ph + 1) + be.1.val, tile_index_lt i.isLt be.1.isLt⟩
        ⟨j.val * (pw + 1) + be.2.val, tile_index_lt j.isLt be.2.isLt⟩)

lemma le_tileMax {Nd C hq ph wq pw : Nat}
    (inputs : Fin Nd → Fin C → Fin (hq * (ph + 1)) → Fin (wq * (pw + 1)) → ℚ)
    (n : Fin Nd) (c : Fin C) (i : Fin hq) (j : Fin wq)
    (be : Fin (ph + 1) × Fin (pw + 1)) :
    inputs n c ⟨i.val * (ph + 1) + be.1.val, tile_index_lt i.isLt be.1.isLt⟩
        ⟨j.val * (pw + 1) + be.2.val, tile_index_lt j.isLt be.2.isLt⟩
      ≤ tileMax inputs n c i j := by
  unfold tileMax
  exact Finset.le_sup'
    (fun q : Fin (ph + 1) × Fin (pw + 1) =>
      inputs n c ⟨i.val * (ph + 1) + q.1.val, tile_index_lt i.isLt q.1.isLt⟩
        ⟨j.val * (pw + 1) + q.2.val, tile_index_lt j.isLt q.2.isLt⟩)
    (Finset.mem_univ be)

/-- C4: the max-pool forward pass maps an input of shape
`(N, C, hq*ph, wq*pw)` to an output of shape `(N, C, hq, wq)` (carried in
the types) whose entry `(n, c, i, j)` is the maximum of the corresponding
`ph × pw` non-overlapping input tile, whatever parameter slice is passed. -/
theorem maxpool_forward_pass_tile_max {Nd C hq ph wq pw : Nat}
    (param_vector : List ℚ)
    (inputs : Fin Nd → Fin C → Fin (hq * (ph + 1)) → Fin (wq * (pw + 1)) → ℚ)
    (n : Fin Nd) (c : Fin C) (i : Fin hq) (j : Fin wq) :
    maxpool_forward_pass param_vector inputs n c i j = tileMax inputs n c i j := by
  apply le_antisymm
  · apply npmax1_le
    intro e
    apply npmax1_le
    intro b
    exact le_tileMax inputs n c i j (b, e)
  · apply Finset.sup'_le
    intro be _
    calc inputs n c
          ⟨i.val * (ph + 1) + be.1.val, tile_index_lt i.isLt be.1.isLt⟩
          ⟨j.val * (pw + 1) + be.2.val, tile_index_lt j.isLt be.2.isLt⟩
        ≤ maxpool_stage1 inputs n c i j be.2 :=
          le_npmax1 (fun b => maxpool_reshape inputs n c i b j be.2) be.1
      _ ≤ maxpool_forward_pass param_vector inputs n c i j :=
          le_npmax1 (fun e => maxpool_stage1 inputs n c i j e) be.2

/-- C10: the max-pool forward pass returns identical outputs for any two
parameter slices — it depends only on the inputs and the pool shape. -/
theorem maxpool_forward_pass_param_independent {Nd C hq ph wq pw : Nat}
    (pv1 pv2 : List ℚ)
    (inputs : Fin Nd → Fin C → Fin (hq * (ph + 1)) → Fin (wq * (pw + 1)) → ℚ) :
    maxpool_forward_pass pv1 inputs = maxpool_forward_pass pv2 inputs := rfl

/-! ## conv_layer.forward_pass (C1)

Lines 83-91: `conv = convolve(inputs, params, axes=([2, 3], [2, 3]),
dot_axes=([1], [0]), mode='valid'); return conv + biases`, where the two
tensors `params` (shape `(Cin, Cout, kh, kw)`) and `biases` (shape
`(1, Cout, 1, 1)`) are read out of the layer's parameter slice (the
`WeightsParser` mechanics are verified separately above, so the embedding
takes the two tensors directly).  `convolve` is
`autograd.scipy.signal.convolve`, a generalized `scipy.signal.convolve`:
along the convolution axes (the two spatial axes) it computes a valid-mode
*convolution* — the kernel is traversed in reversed order, exactly as in
`scipy.signal.convolve` — while the `dot_axes` (input-channel axis of
`inputs` against axis 0 of `params`) are summed like a tensor dot, and the
remaining axes (batch for `inputs`, output channel for `params`) are kept,
in that order.  Sizes are encoded as `H = oh + kh + 1`, `W = ow + kw + 1`
with kernel `(kh + 1, kw + 1)`, so `kh + 1 ≤ H` and `kw + 1 ≤ W` hold by
construction and the valid output is `(oh + 1) × (ow + 1)`, i.e.
`(H − (kh+1) + 1) × (W − (kw+1) + 1)` as the claim's shape demands. -/

/-- Primitive `autograd.scipy.signal.convolve(A, B, axes=([2,3],[2,3]),
dot_axes=([1],[0]), mode='valid')`: at output `(n, co, y, x)` the input
window at `(y+dy, x+dx)` meets the kernel at `(kh−dy, kw−dx)` — the kernel
is flipped along both spatial axes (a true convolution, not a
cross-correlation) — summed over the input channel `ci`. -/
def convolve_valid {Nd Cin Cout oh kh ow kw : Nat}
    (A : Fin Nd → Fin Cin → Fin (oh + kh + 1) → Fin (ow + kw + 1) → ℚ)
    (B : Fin Cin → Fin Cout → Fin (kh + 1) → Fin (kw + 1) → ℚ) :
    Fin Nd → Fin Cout → Fin (oh + 1) → Fin (ow + 1) → ℚ :=
  fun n co y x => ∑ ci : Fin Cin, ∑ dy : Fin (kh + 1), ∑ dx : Fin (kw + 1),
    A n ci ⟨y.val + dy.val, by have h1 := y.isLt; have h2 := dy.isLt; omega⟩
        ⟨x.val + dx.val, by have h1 := x.isLt; have h2 := dx.isLt; omega⟩
      * B ci co ⟨kh - dy.val, by omega⟩ ⟨kw - dx.val, by omega⟩

/-- Method `conv_layer.forward_pass`: the convolution plus the `(1, Cout, 1, 1)`
bias tensor, broadcast over batch and both spatial axes. -/
def conv_forward_pass {Nd Cin Cout oh kh ow kw : Nat}
    (params : Fin Cin → Fin Cout → Fin (kh + 1) → Fin (kw + 1) → ℚ)
    (biases : Fin 1 → Fin Cout → Fin 1 → Fin 1 → ℚ)
    (inputs : Fin Nd → Fin Cin → Fin (oh + kh + 1) → Fin (ow + kw + 1) → ℚ) :
    Fin Nd → Fin Cout → Fin (oh + 1) → Fin (ow + 1) → ℚ :=
  fun n co y x => convolve_valid inputs params n co y x + biases 0 co 0 0

/-- Modelled from the spec's words: the valid (no-padding)
*cross-correlation* of input and kernel summed over input channels,
`out[n,co,y,x] = Σ_ci Σ_dy Σ_dx A[n,ci,y+dy,x+dx] * B[ci,co,dy,dx]`
(the kernel is *not* flipped). -/
def cross_correlation_valid {Nd Cin Cout oh kh ow kw : Nat}
    (A : Fin Nd → Fin Cin → Fin (oh + kh + 1) → Fin (ow + kw + 1) → ℚ)
    (B : Fin Cin → Fin Cout → Fin (kh + 1) → Fin (kw + 1) → ℚ) :
    Fin Nd → Fin Cout → Fin (oh + 1) → Fin (ow + 1) → ℚ :=
  fun n co y x => ∑ ci : Fin Cin, ∑ dy : Fin (kh + 1), ∑ dx : Fin (kw + 1),
    A n ci ⟨y.val + dy.val, by have h1 := y.isLt; have h2 := dy.isLt; omega⟩
        ⟨x.val + dx.val, by have h1 := x.isLt; have h2 := dx.isLt; omega⟩
      * B ci co dy dx

lemma Fin_mk_sub_sub {k : Nat} (d : Fin (k + 1))
    (h : k - (k - d.val) < k + 1) :
    (⟨k - (k - d.val), h⟩ : Fin (k + 1)) = d := by
  apply Fin.ext
  show k - (k - d.val) = d.val
  have hd := d.isLt
  omega

/-- Reversing a kernel along both of its spatial axes. -/
def flip_spatial {Cin Cout kh kw : Nat}
    (B : Fin Cin → Fin Cout → Fin (kh + 1) → Fin (kw + 1) → ℚ) :
    Fin Cin → Fin Cout → Fin (kh + 1) → Fin (kw + 1) → ℚ :=
  fun ci co dy dx => B ci co ⟨kh - dy.val, by omega⟩ ⟨kw - dx.val, by omega⟩

lemma flip_spatial_flip_spatial {Cin Cout kh kw : Nat}
    (B : Fin Cin → Fin Cout → Fin (kh + 1) → Fin (kw + 1) → ℚ) :
    flip_spatial (flip_spatial B) = B := by
  funext ci co dy dx
  unfold flip_spatial
  rw [Fin_mk_sub_sub dy, Fin_mk_sub_sub dx]

/-- C1 counterexample: with batch, channels and kernel height all `1`,
kernel row `[1, 0]` and input row `[0, 1]`, zero bias, the forward pass
returns `1` (the kernel is flipped) while bias plus the valid
cross-correlation is `0` — the claim's equality fails. -/
theorem conv_forward_pass_not_cross_correlation :
    ¬ (conv_forward_pass
        (fun (_ : Fin 1) (_ : Fin 1) (_ : Fin 1) (dx : Fin 2) =>
          if dx.val = 0 then (1 : ℚ) else 0)
        (fun (_ : Fin 1) (_ : Fin 1) (_ : Fin 1) (_ : Fin 1) => (0 : ℚ))
        (fun (_ : Fin 1) (_ : Fin 1) (_ : Fin 1) (x : Fin 2) =>
          if x.val = 0 then (0 : ℚ) else 1)
        0 0 0 0
      = (fun (_ : Fin 1) (_ : Fin 1) (_ : Fin 1) (_ : Fin 1) => (0 : ℚ)) 0 0 0 0
        + cross_correlation_valid
            (fun (_ : Fin 1) (_ : Fin 1) (_ : Fin 1) (x : Fin 2) =>
              if x.val = 0 then (0 : ℚ) else 1)
            (fun (_ : Fin 1) (_ : Fin 1) (_ : Fin 1) (dx : Fin 2) =>
              if dx.val = 0 then (1 : ℚ) else 0)
            0 0 0 0) := by
  norm_num [conv_forward_pass, convolve_valid, cross_correlation_valid,
    Fin.sum_univ_succ]

/-- C1 (amended): for every input batch `(N, Cin, H, W)`, kernel tensor
`(Cin, Cout, kh, kw)` and bias tensor `(1, Cout, 1, 1)` with `kh ≤ H`,
`kw ≤ W` (encoded in the types), the conv forward pass returns an output of
shape `(N, Cout, H−kh+1, W−kw+1)` (its type) equal to the bias plus the
valid cross-correlation of the input with the *spatially flipped* kernel
(equivalently the valid convolution), summed over input channels. -/
theorem conv_forward_pass_eq_flipped_cross_correlation
    {Nd Cin Cout oh kh ow kw : Nat}
    (params : Fin Cin → Fin Cout → Fin (kh + 1) → Fin (kw + 1) → ℚ)
    (biases : Fin 1 → Fin Cout → Fin 1 → Fin 1 → ℚ)
    (inputs : Fin Nd → Fin Cin → Fin (oh + kh + 1) → Fin (ow + kw + 1) → ℚ)
    (n : Fin Nd) (co : Fin Cout) (y : Fin (oh + 1)) (x : Fin (ow + 1)) :
    conv_forward_pass params biases inputs n co y x
      = biases 0 co 0 0
        + cross_correlation_valid inputs (flip_spatial params) n co y x :=
  add_comm (convolve_valid inputs params n co y x) (biases 0 co 0 0)

/-! ## Momentum SGD and the training loop (C6, C7)

Lines 260-268: for each epoch, `print_perf(epoch, W)` first reports the
train/test fractional errors at the *current* weights, then every batch
applies `grad_W = loss_grad(W, train_images[idxs], train_labels[idxs])`;
`cur_dir = momentum * cur_dir + (1.0 - momentum) * grad_W`;
`W -= learning_rate * cur_dir`.  Weight vectors are modelled as `Nat → ℚ`
with pointwise numpy broadcasting; the mutable state is the pair
`(cur_dir, W)` with `cur_dir` initialized to `np.zeros`.  The gradient
provider `loss_grad` (the external autograd capability, a function of the
current weights and the batch slice) and the reporting evaluation are
parameters of the embedding. -/

/-- One batch update (lines 267-268) with gradient `grad_W`:
`cur_dir ← m·cur_dir + (1−m)·grad_W`; `W ← W − lr·cur_dir`. -/
def momentum_batch_update (momentum learning_rate : ℚ) (grad_W : Nat → ℚ)
    (st : (Nat → ℚ) × (Nat → ℚ)) : (Nat → ℚ) × (Nat → ℚ) :=
  (fun i => momentum * st.1 i + (1 - momentum) * grad_W i,
   fun i => st.2 i - learning_rate
      * (momentum * st.1 i + (1 - momentum) * grad_W i))

/-- C6: with `v₀ = 0`, constant gradient `g`, constant momentum `m` and
constant learning rate `lr`, after `k` update steps the momentum buffer is
`g·(1−m^k)` and the weights are `W₀ − lr·g·Σ_{i=1}^{k}(1−m^i)`,
coordinatewise. -/
theorem momentum_sgd_closed_form (m lr : ℚ) (g W0 : Nat → ℚ) (k : Nat)
    (i : Nat) :
    ((momentum_batch_update m lr g)^[k] (fun _ => 0, W0)).1 i
        = g i * (1 - m ^ k)
    ∧ ((momentum_batch_update m lr g)^[k] (fun _ => 0, W0)).2 i
        = W0 i - lr * g i * (∑ j ∈ Finset.range k, (1 - m ^ (j + 1))) := by
  induction k with
  | zero => simp
  | succ k ih =>
    obtain ⟨ih1, ih2⟩ := ih
    rw [Function.iterate_succ_apply']
    constructor
    · simp only [momentum_batch_update]
      rw [ih1]
      ring
    · simp only [momentum_batch_update]
      rw [ih1, ih2, Finset.sum_range_succ]
      ring

/-- One full epoch of batch updates (lines 262-268): fold over the batch
slices, computing each batch's gradient at the then-current weights. -/
def sgd_epoch (momentum learning_rate : ℚ)
    (loss_grad : (Nat → ℚ) → Nat × Nat → (Nat → ℚ))
    (batch_idxs : List (Nat × Nat))
    (st : (Nat → ℚ) × (Nat → ℚ)) : (Nat → ℚ) × (Nat → ℚ) :=
  batch_idxs.foldl
    (fun st idxs =>
      momentum_batch_update momentum learning_rate (loss_grad st.2 idxs) st)
    st

/-- The epoch loop (lines 260-268): each epoch first records
`print_perf`'s evaluation of the current weights, then applies that
epoch's batch updates.  Returns the reported values in order together with
the final state. -/
def sgd_train (momentum learning_rate : ℚ)
    (loss_grad : (Nat → ℚ) → Nat × Nat → (Nat → ℚ))
    (batch_idxs : List (Nat × Nat)) (report : (Nat → ℚ) → ℚ) :
    Nat → (Nat → ℚ) × (Nat → ℚ) → List ℚ × ((Nat → ℚ) × (Nat → ℚ))
  | 0, st => ([], st)
  | n + 1, st =>
    (report st.2
        :: (sgd_train momentum learning_rate loss_grad batch_idxs report n
          (sgd_epoch momentum learning_rate loss_grad batch_idxs st)).1,
     (sgd_train momentum learning_rate loss_grad batch_idxs report n
        (sgd_epoch momentum learning_rate loss_grad batch_idxs st)).2)

lemma sgd_train_final_state (m lr : ℚ)
    (loss_grad : (Nat → ℚ) → Nat × Nat → (Nat → ℚ))
    (batch_idxs : List (Nat × Nat)) (report : (Nat → ℚ) → ℚ) :
    ∀ (n : Nat) (st0 : (Nat → ℚ) × (Nat → ℚ)),
      (sgd_train m lr loss_grad batch_idxs report n st0).2
        = (sgd_epoch m lr loss_grad batch_idxs)^[n] st0 := by
  intro n
  induction n with
  | zero => intro st0; rfl
  | succ n ih =>
    intro st0
    rw [sgd_train, ih, Function.iterate_succ_apply]

lemma sgd_train_report_at (m lr : ℚ)
    (loss_grad : (Nat → ℚ) → Nat × Nat → (Nat → ℚ))
    (batch_idxs : List (Nat × Nat)) (report : (Nat → ℚ) → ℚ) :
    ∀ (n : Nat) (st0 : (Nat → ℚ) × (Nat → ℚ)) (e : Nat), e < n →
      (sgd_train m lr loss_grad batch_idxs report n st0).1[e]?
        = some (report (((sgd_epoch m lr loss_grad batch_idxs)^[e]) st0).2) := by
  intro n
  induction n with
  | zero => intro st0 e he; omega
  | succ n ih =>
    intro st0 e he
    have hpair : (sgd_train m lr loss_grad batch_idxs report (n + 1) st0).1
        = report st0.2
          :: (sgd_train m lr loss_grad batch_idxs report n
            (sgd_epoch m lr loss_grad batch_idxs st0)).1 := by
      rw [sgd_train]
    cases e with
    | zero =>
      rw [hpair, List.getElem?_cons_zero, Function.iterate_zero_apply]
    | succ e =>
      rw [hpair, List.getElem?_cons_succ, ih _ e (by omega),
        Function.iterate_succ_apply]

/-- C7: in every epoch `e < num_epochs` the reported metric is the
evaluation of the weights after exactly `e` epochs of updates — i.e. the
weights as they stand *before* epoch `e`'s own updates (epoch `0` reports
the freshly initialized weights) — while the loop's final weights carry
`num_epochs` epochs of updates, one more than the last report used. -/
theorem sgd_train_reports_pre_update (m lr : ℚ)
    (loss_grad : (Nat → ℚ) → Nat × Nat → (Nat → ℚ))
    (batch_idxs : List (Nat × Nat)) (report : (Nat → ℚ) → ℚ)
    (num_epochs : Nat) (st0 : (Nat → ℚ) × (Nat → ℚ)) (e : Nat)
    (h : e < num_epochs) :
    (sgd_train m lr loss_grad batch_idxs report num_epochs st0).1[e]?
        = some (report (((sgd_epoch m lr loss_grad batch_idxs)^[e]) st0).2)
    ∧ (sgd_train m lr loss_grad batch_idxs report num_epochs st0).2
        = (sgd_epoch m lr loss_grad batch_idxs)^[num_epochs] st0 :=
  ⟨sgd_train_report_at m lr loss_grad batch_idxs report num_epochs st0 e h,
   sgd_train_final_state m lr loss_grad batch_idxs report num_epochs st0⟩

/-- Witness for `sgd_train_reports_pre_update` at a concrete run. -/
theorem sgd_train_reports_pre_update_witness :
    (sgd_train (1 / 2) 1 (fun _ _ => fun _ => 1) [(0, 1)] (fun W => W 0)
        2 (fun _ => 0, fun _ => 0)).1[1]?
        = some ((fun W : Nat → ℚ => W 0)
            (((sgd_epoch (1 / 2) 1 (fun _ _ => fun _ => 1) [(0, 1)])^[1])
              (fun _ => 0, fun _ => 0)).2)
    ∧ (sgd_train (1 / 2) 1 (fun _ _ => fun _ => 1) [(0, 1)] (fun W => W 0)
        2 (fun _ => 0, fun _ => 0)).2
        = (sgd_epoch (1 / 2) 1 (fun _ _ => fun _ => 1) [(0, 1)])^[2]
            (fun _ => 0, fun _ => 0) :=
  sgd_train_reports_pre_update (1 / 2) 1 (fun _ _ => fun _ => 1) [(0, 1)]
    (fun W => W 0) 2 (fun _ => 0, fun _ => 0) 1 (by decide)

end MeshCNN
